import Mathlib

/-!
Verification of the dynamite GPU subspace codecs (`bcuda_impl.cu` and the
newer unnamed generation of the same file, called `Part000` below).

The embedding models `PetscInt` basis states as `Nat` bit patterns (the spec
declares basis states to be unsigned bitmasks) and signed index results as
`Int`, so the sentinel `-1` is representable.  Device memory for the lookup
tables is modelled as a total function from addresses to values; the CUDA
allocator is modelled as an explicit heap with a success/failure oracle.
-/

namespace Dynamite

/-- Helper for `popcount`, structurally recursive on a fuel argument so that
it evaluates inside the kernel. -/
def popcountGo (fuel n : Nat) : Nat :=
  match fuel with
  | 0 => 0
  | fuel + 1 => if n = 0 then 0 else n % 2 + popcountGo fuel (n / 2)

/-- Embeds `CUDA_POPCOUNT` (`__popc` / `__popcll`): number of set bits. -/
def popcount (n : Nat) : Nat := popcountGo n n

theorem popcountGo_congr : ∀ fuel1 fuel2 n, n ≤ fuel1 → n ≤ fuel2 →
    popcountGo fuel1 n = popcountGo fuel2 n := by
  intro fuel1
  induction fuel1 with
  | zero =>
    intro fuel2 n h1 _
    cases fuel2 with
    | zero => rfl
    | succ f2 =>
      have : n = 0 := by omega
      simp [popcountGo, this]
  | succ f1 ih =>
    intro fuel2 n h1 h2
    by_cases hn : n = 0
    · cases fuel2 <;> simp [popcountGo, hn]
    · cases fuel2 with
      | zero => omega
      | succ f2 =>
        simp only [popcountGo, if_neg hn]
        rw [ih f2 (n / 2) (by omega) (by omega)]

theorem popcount_eq (n : Nat) : popcount n = n % 2 + popcount (n / 2) := by
  cases n with
  | zero => rfl
  | succ m =>
    show popcountGo (m + 1) (m + 1) = _
    simp only [popcountGo, if_neg (Nat.succ_ne_zero m)]
    rw [popcountGo_congr m ((m + 1) / 2) ((m + 1) / 2) (by omega) (by omega)]
    rfl

theorem popcount_two_mul_add (n b : Nat) (hb : b ≤ 1) :
    popcount (2 * n + b) = popcount n + b := by
  have h1 : (2 * n + b) % 2 = b := by omega
  have h2 : (2 * n + b) / 2 = n := by omega
  rw [popcount_eq, h1, h2, Nat.add_comm]

theorem popcount_two_pow_add (m : Nat) : ∀ s, s < 2 ^ m →
    popcount (2 ^ m + s) = popcount s + 1 := by
  induction m with
  | zero =>
    intro s hs
    interval_cases s
    decide
  | succ m ih =>
    intro s hs
    have hp : 2 ^ (m + 1) = 2 ^ m * 2 := by rw [Nat.pow_succ]
    have h1 : (2 ^ (m + 1) + s) % 2 = s % 2 := by rw [hp]; omega
    have h2 : (2 ^ (m + 1) + s) / 2 = 2 ^ m + s / 2 := by rw [hp]; omega
    have h3 : s / 2 < 2 ^ m := by rw [hp] at hs; omega
    rw [popcount_eq, h1, h2, ih _ h3, popcount_eq s]
    omega

/-- Oring a low bit into an even number is addition. -/
theorem two_mul_lor_bit (s b : Nat) (hb : b ≤ 1) : 2 * s ||| b = 2 * s + b := by
  interval_cases b
  · simp
  · have h1 : 2 * s = Nat.bit false s := by simp [Nat.bit_val]
    have h2 : (1 : Nat) = Nat.bit true 0 := by simp [Nat.bit_val]
    rw [h1, h2, Nat.lor_bit]
    simp [Nat.bit_val]

/-- Oring a fresh top bit into a small number is addition. -/
theorem lor_two_pow_of_lt (m : Nat) : ∀ r, r < 2 ^ m → r ||| 2 ^ m = 2 ^ m + r := by
  induction m with
  | zero =>
    intro r hr
    interval_cases r
    simp
  | succ m ih =>
    intro r hr
    have hbit : Nat.bit (Nat.bodd r) (Nat.div2 r) = r := Nat.bit_decomp r
    have hpow : (2 : Nat) ^ (m + 1) = Nat.bit false (2 ^ m) := by
      simp [Nat.bit_val]; omega
    have hdiv : Nat.div2 r < 2 ^ m := by
      have := Nat.div2_val r
      have : Nat.div2 r = r / 2 := Nat.div2_val r
      rw [this]
      have := Nat.pow_succ 2 m
      omega
    calc r ||| 2 ^ (m + 1)
        = Nat.bit (Nat.bodd r) (Nat.div2 r) ||| Nat.bit false (2 ^ m) := by
          rw [hbit, ← hpow]
      _ = Nat.bit (Nat.bodd r || false) (Nat.div2 r ||| 2 ^ m) := by
          rw [Nat.lor_bit]
      _ = Nat.bit (Nat.bodd r) (2 ^ m + Nat.div2 r) := by
          rw [Bool.or_false, ih _ hdiv]
      _ = 2 ^ (m + 1) + r := by
          conv_rhs => rw [← hbit]
          simp [Nat.bit_val, Nat.pow_succ]
          omega

theorem xor_le_one {a b : Nat} (ha : a ≤ 1) (hb : b ≤ 1) : a ^^^ b ≤ 1 := by
  interval_cases a <;> interval_cases b <;> decide

theorem add_xor_parity {a b : Nat} (ha : a ≤ 1) (hb : b ≤ 1) :
    (a + (a ^^^ b)) % 2 = b := by
  interval_cases a <;> interval_cases b <;> decide

/-! ## Parity codec (two generations) -/

/-- The `data_Parity` struct: site count `L` and the target parity sector. -/
structure data_Parity where
  L : Nat
  space : Nat

/-- Embeds the `CUDA_PARITY` macro: `CUDA_POPCOUNT(x) & 1`. -/
def CUDA_PARITY (x : Nat) : Nat := popcount x &&& 1

theorem CUDA_PARITY_eq_mod (x : Nat) : CUDA_PARITY x = popcount x % 2 := by
  unfold CUDA_PARITY
  exact Nat.and_one_is_mod _

namespace Part000

/-- Embeds `S2I_CUDA_Parity` from the unnamed generation:
`(CUDA_PARITY(state) == data->space) ? state>>1 : -1`. -/
def S2I_CUDA_Parity (state : Nat) (data : data_Parity) : Int :=
  if CUDA_PARITY state = data.space then ((state >>> 1 : Nat) : Int) else -1

/-- Embeds `I2S_CUDA_Parity` from the unnamed generation:
`(idx<<1) | (CUDA_PARITY(idx) ^ data->space)`. -/
def I2S_CUDA_Parity (idx : Nat) (data : data_Parity) : Nat :=
  (idx <<< 1) ||| (CUDA_PARITY idx ^^^ data.space)

end Part000

namespace BcudaImplCu

/-- Embeds the `PARITY_BIT(L)` macro: `1 << (L-1)`. -/
def PARITY_BIT (L : Nat) : Nat := 1 <<< (L - 1)

/-- Embeds the `PARITY_MASK(L)` macro: `PARITY_BIT(L) - 1`. -/
def PARITY_MASK (L : Nat) : Nat := PARITY_BIT L - 1

/-- Embeds `S2I_CUDA_Parity` from `bcuda_impl.cu`: `state & PARITY_MASK(data->L)`. -/
def S2I_CUDA_Parity (state : Nat) (data : data_Parity) : Int :=
  ((state &&& PARITY_MASK data.L : Nat) : Int)

/-- Embeds `I2S_CUDA_Parity` from `bcuda_impl.cu`:
`idx | (((data->space) ^ __popcll(idx) & 1) << (data->L - 1))`. -/
def I2S_CUDA_Parity (idx : Nat) (data : data_Parity) : Nat :=
  idx ||| ((data.space ^^^ (popcount idx &&& 1)) <<< (data.L - 1))

end BcudaImplCu

theorem I2S_CUDA_Parity_eq_part000 (idx L space : Nat) (hs : space ≤ 1) :
    Part000.I2S_CUDA_Parity idx ⟨L, space⟩ = 2 * idx + (popcount idx % 2 ^^^ space) := by
  unfold Part000.I2S_CUDA_Parity
  rw [Nat.shiftLeft_eq, CUDA_PARITY_eq_mod]
  have h : idx * 2 ^ 1 = 2 * idx := by ring
  rw [h]
  exact two_mul_lor_bit _ _ (xor_le_one (by omega) hs)

theorem xor_eq_one_add {a b : Nat} (ha : a ≤ 1) (hb : b ≤ 1) (h : a ^^^ b = 1) :
    a + b = 1 := by
  interval_cases a <;> interval_cases b <;> simp_all

theorem I2S_CUDA_Parity_eq_bcuda (idx L space : Nat) (hs : space ≤ 1)
    (hidx : idx < 2 ^ (L - 1)) :
    BcudaImplCu.I2S_CUDA_Parity idx ⟨L, space⟩ =
      (space ^^^ popcount idx % 2) * 2 ^ (L - 1) + idx := by
  unfold BcudaImplCu.I2S_CUDA_Parity
  rw [Nat.and_one_is_mod, Nat.shiftLeft_eq]
  show idx ||| (space ^^^ popcount idx % 2) * 2 ^ (L - 1) = _
  have hb : space ^^^ popcount idx % 2 ≤ 1 := xor_le_one hs (by omega)
  rcases (by omega : space ^^^ popcount idx % 2 = 0 ∨ space ^^^ popcount idx % 2 = 1)
    with h | h
  · rw [h]; simp
  · rw [h, Nat.one_mul, lor_two_pow_of_lt _ idx hidx]

/-- Claim C3 (amended) : the Parity codec of `bcuda_impl.cu` performs no
membership validation — for every state, encode returns the state with bit
`L-1` cleared, i.e. `state AND (2^(L-1) - 1)`, and never returns the
sentinel `-1`. -/
theorem c3_bcuda_parity_encode_mask (state : Nat) (d : data_Parity) :
    BcudaImplCu.S2I_CUDA_Parity state d = ((state &&& (2 ^ (d.L - 1) - 1) : Nat) : Int) ∧
    BcudaImplCu.S2I_CUDA_Parity state d ≠ -1 := by
  have hmask : BcudaImplCu.PARITY_MASK d.L = 2 ^ (d.L - 1) - 1 := by
    unfold BcudaImplCu.PARITY_MASK BcudaImplCu.PARITY_BIT
    rw [Nat.shiftLeft_eq, Nat.one_mul]
  constructor
  · unfold BcudaImplCu.S2I_CUDA_Parity
    rw [hmask]
  · unfold BcudaImplCu.S2I_CUDA_Parity
    have := Int.natCast_nonneg (state &&& BcudaImplCu.PARITY_MASK d.L)
    omega

/-- Claim C3 (counterexample to the claim as stated) : the other Parity codec
generation does validate membership and does not clear bit `L-1`.  With
`L = 3`, `space = 0`: state `0b110` is a member of the sector, yet encode
returns `0b11 = 3`, not `0b110 AND 0b011 = 2`; and state `0b001` (odd
parity) is rejected with the sentinel `-1`. -/
theorem c3_part000_parity_counterexample :
    Part000.S2I_CUDA_Parity 6 ⟨3, 0⟩ = 3 ∧
    ((3 : Int) ≠ ((6 &&& (2 ^ (3 - 1) - 1) : Nat) : Int)) ∧
    Part000.S2I_CUDA_Parity 1 ⟨3, 0⟩ = -1 := by
  decide

theorem parity_decode_popcount_aux (L space idx : Nat) (hL : 1 ≤ L) (hs : space ≤ 1)
    (hidx : idx < 2 ^ (L - 1)) :
    popcount (Part000.I2S_CUDA_Parity idx ⟨L, space⟩) % 2 = space ∧
    popcount (BcudaImplCu.I2S_CUDA_Parity idx ⟨L, space⟩) % 2 = space := by
  constructor
  · rw [I2S_CUDA_Parity_eq_part000 idx L space hs]
    rw [popcount_two_mul_add _ _ (xor_le_one (by omega) hs)]
    have h := add_xor_parity (a := popcount idx % 2) (b := space) (by omega) hs
    omega
  · rw [I2S_CUDA_Parity_eq_bcuda idx L space hs hidx]
    have hb : space ^^^ popcount idx % 2 ≤ 1 := xor_le_one hs (by omega)
    rcases (by omega : space ^^^ popcount idx % 2 = 0 ∨ space ^^^ popcount idx % 2 = 1)
      with h | h
    · rw [h, Nat.zero_mul, Nat.zero_add]
      exact (Nat.xor_eq_zero.mp h).symm
    · rw [h, Nat.one_mul, popcount_two_pow_add _ _ hidx]
      have := xor_eq_one_add hs (by omega : popcount idx % 2 ≤ 1) h
      omega

/-- Claim C6 : for both Parity codec generations, with `1 ≤ L`,
`space ≤ 1` and any index `i < 2^(L-1)`, the population count of the decoded
state has parity equal to the target parity `space`. -/
theorem c6_parity_decode_popcount (L space idx : Nat) (hL : 1 ≤ L) (hs : space ≤ 1)
    (hidx : idx < 2 ^ (L - 1)) :
    popcount (Part000.I2S_CUDA_Parity idx ⟨L, space⟩) % 2 = space ∧
    popcount (BcudaImplCu.I2S_CUDA_Parity idx ⟨L, space⟩) % 2 = space :=
  parity_decode_popcount_aux L space idx hL hs hidx

/-- Witness for C6 at `L = 3`, `space = 0`, `idx = 2`. -/
theorem c6_witness :
    1 ≤ 3 ∧ 0 ≤ 1 ∧ 2 < 2 ^ (3 - 1) ∧
    popcount (Part000.I2S_CUDA_Parity 2 ⟨3, 0⟩) % 2 = 0 ∧
    popcount (BcudaImplCu.I2S_CUDA_Parity 2 ⟨3, 0⟩) % 2 = 0 := by
  refine ⟨by decide, by decide, by decide, ?_⟩
  have h := c6_parity_decode_popcount 3 0 2 (by decide) (by decide) (by decide)
  exact ⟨h.1, h.2⟩

theorem bit_from_parity {c p t : Nat} (hc : c ≤ 1) (hp : p ≤ 1) (ht : t ≤ 1)
    (h : (c + p) % 2 = t) : c = p ^^^ t := by
  interval_cases c <;> interval_cases p <;> interval_cases t <;> simp_all

theorem two_pow_split {L : Nat} (hL : 1 ≤ L) : 2 ^ L = 2 * 2 ^ (L - 1) := by
  have h : L - 1 + 1 = L := by omega
  calc 2 ^ L = 2 ^ (L - 1 + 1) := by rw [h]
    _ = 2 ^ (L - 1) * 2 := by rw [Nat.pow_succ]
    _ = 2 * 2 ^ (L - 1) := Nat.mul_comm _ _

theorem p000_encode_decode (L space idx : Nat) (hs : space ≤ 1) :
    Part000.S2I_CUDA_Parity (Part000.I2S_CUDA_Parity idx ⟨L, space⟩) ⟨L, space⟩ = (idx : Int) := by
  have hb : popcount idx % 2 ^^^ space ≤ 1 := xor_le_one (by omega) hs
  have hval := I2S_CUDA_Parity_eq_part000 idx L space hs
  have hpar : CUDA_PARITY (Part000.I2S_CUDA_Parity idx ⟨L, space⟩) = space := by
    rw [CUDA_PARITY_eq_mod, hval, popcount_two_mul_add _ _ hb]
    have h := add_xor_parity (a := popcount idx % 2) (b := space) (by omega) hs
    omega
  show Part000.S2I_CUDA_Parity _ ⟨L, space⟩ = _
  unfold Part000.S2I_CUDA_Parity
  rw [if_pos hpar, hval, Nat.shiftRight_one]
  congr 1
  omega

theorem p000_decode_encode (L space s : Nat) (hs : space ≤ 1)
    (hpar : popcount s % 2 = space) :
    Part000.I2S_CUDA_Parity (Part000.S2I_CUDA_Parity s ⟨L, space⟩).toNat ⟨L, space⟩ = s := by
  have hcond : CUDA_PARITY s = space := by rw [CUDA_PARITY_eq_mod]; exact hpar
  have henc : Part000.S2I_CUDA_Parity s ⟨L, space⟩ = ((s >>> 1 : Nat) : Int) := by
    unfold Part000.S2I_CUDA_Parity
    exact if_pos hcond
  rw [henc, Int.toNat_natCast, Nat.shiftRight_one,
      I2S_CUDA_Parity_eq_part000 _ _ _ hs]
  have hc : s % 2 = popcount (s / 2) % 2 ^^^ space := by
    apply bit_from_parity (by omega) (by omega) hs
    rw [popcount_eq] at hpar
    omega
  omega

theorem bcuda_encode_eq_mod (s L space : Nat) :
    BcudaImplCu.S2I_CUDA_Parity s ⟨L, space⟩ = ((s % 2 ^ (L - 1) : Nat) : Int) := by
  unfold BcudaImplCu.S2I_CUDA_Parity BcudaImplCu.PARITY_MASK BcudaImplCu.PARITY_BIT
  rw [Nat.shiftLeft_eq, Nat.one_mul]
  show ((s &&& 2 ^ (L - 1) - 1 : Nat) : Int) = _
  rw [Nat.and_pow_two_sub_one_eq_mod]

theorem bcuda_encode_decode (L space idx : Nat) (hs : space ≤ 1) (hL : 1 ≤ L)
    (hidx : idx < 2 ^ (L - 1)) :
    BcudaImplCu.S2I_CUDA_Parity (BcudaImplCu.I2S_CUDA_Parity idx ⟨L, space⟩) ⟨L, space⟩ =
      (idx : Int) := by
  rw [bcuda_encode_eq_mod, I2S_CUDA_Parity_eq_bcuda idx L space hs hidx]
  congr 1
  rw [Nat.mul_comm, Nat.mul_add_mod]
  exact Nat.mod_eq_of_lt hidx

theorem bcuda_decode_encode (L space s : Nat) (hs : space ≤ 1) (hL : 1 ≤ L)
    (hlt : s < 2 ^ L) (hpar : popcount s % 2 = space) :
    BcudaImplCu.I2S_CUDA_Parity (BcudaImplCu.S2I_CUDA_Parity s ⟨L, space⟩).toNat ⟨L, space⟩ =
      s := by
  rw [bcuda_encode_eq_mod, Int.toNat_natCast]
  have hpos : 0 < 2 ^ (L - 1) := Nat.two_pow_pos _
  have hr : s % 2 ^ (L - 1) < 2 ^ (L - 1) := Nat.mod_lt _ hpos
  rw [I2S_CUDA_Parity_eq_bcuda _ L space hs hr]
  have hsplit := Nat.div_add_mod s (2 ^ (L - 1))
  have h2 := two_pow_split hL
  have hhi : s / 2 ^ (L - 1) < 2 := (Nat.div_lt_iff_lt_mul hpos).mpr (by omega)
  rcases Nat.le_one_iff_eq_zero_or_eq_one.mp (Nat.le_of_lt_succ hhi) with h0 | h1
  · rw [h0, Nat.mul_zero, Nat.zero_add] at hsplit
    have hx : space ^^^ popcount (s % 2 ^ (L - 1)) % 2 = 0 := by
      rw [hsplit, hpar, Nat.xor_self]
    rw [hx, Nat.zero_mul, Nat.zero_add]
    exact hsplit
  · rw [h1, Nat.mul_one] at hsplit
    have hpc : popcount s = popcount (s % 2 ^ (L - 1)) + 1 := by
      conv_lhs => rw [← hsplit]
      exact popcount_two_pow_add _ _ hr
    have hx : space ^^^ popcount (s % 2 ^ (L - 1)) % 2 = 1 := by
      rcases (by omega : popcount (s % 2 ^ (L - 1)) % 2 = 0 ∨
          popcount (s % 2 ^ (L - 1)) % 2 = 1) with hh | hh
      · have hsp : space = 1 := by omega
        simp [hh, hsp]
      · have hsp : space = 0 := by omega
        simp [hh, hsp]
    rw [hx, Nat.one_mul]
    exact hsplit

theorem p000_decode_mem (L space idx : Nat) (hL : 1 ≤ L) (hs : space ≤ 1)
    (hidx : idx < 2 ^ (L - 1)) :
    Part000.I2S_CUDA_Parity idx ⟨L, space⟩ < 2 ^ L ∧
    popcount (Part000.I2S_CUDA_Parity idx ⟨L, space⟩) % 2 = space := by
  refine ⟨?_, (parity_decode_popcount_aux L space idx hL hs hidx).1⟩
  rw [I2S_CUDA_Parity_eq_part000 idx L space hs]
  have hb : popcount idx % 2 ^^^ space ≤ 1 := xor_le_one (by omega) hs
  have := two_pow_split hL
  omega

theorem bcuda_decode_mem (L space idx : Nat) (hL : 1 ≤ L) (hs : space ≤ 1)
    (hidx : idx < 2 ^ (L - 1)) :
    BcudaImplCu.I2S_CUDA_Parity idx ⟨L, space⟩ < 2 ^ L ∧
    popcount (BcudaImplCu.I2S_CUDA_Parity idx ⟨L, space⟩) % 2 = space := by
  refine ⟨?_, (parity_decode_popcount_aux L space idx hL hs hidx).2⟩
  rw [I2S_CUDA_Parity_eq_bcuda idx L space hs hidx]
  have hb : space ^^^ popcount idx % 2 ≤ 1 := xor_le_one hs (by omega)
  have := two_pow_split hL
  rcases (by omega : space ^^^ popcount idx % 2 = 0 ∨ space ^^^ popcount idx % 2 = 1)
    with h | h <;> rw [h] <;> omega

/-- Claim C8 : for both Parity codec generations with `1 ≤ L` and target
parity `space ≤ 1`, decode restricted to `[0, 2^(L-1))` is a bijection onto
the set of `L`-bit states whose population count has parity `space`, with
encode as its inverse on that set; in particular for `L = 3`,
`target_parity = 0` the image of indices `[0, 4)` is exactly
`{0b000, 0b011, 0b101, 0b110}`. -/
theorem c8_parity_bijection (L space : Nat) (hL : 1 ≤ L) (hs : space ≤ 1) :
    Set.BijOn (fun i => Part000.I2S_CUDA_Parity i ⟨L, space⟩) (Set.Iio (2 ^ (L - 1)))
      {s : Nat | s < 2 ^ L ∧ popcount s % 2 = space} ∧
    Set.BijOn (fun i => BcudaImplCu.I2S_CUDA_Parity i ⟨L, space⟩) (Set.Iio (2 ^ (L - 1)))
      {s : Nat | s < 2 ^ L ∧ popcount s % 2 = space} ∧
    (∀ i, i < 2 ^ (L - 1) →
      Part000.S2I_CUDA_Parity (Part000.I2S_CUDA_Parity i ⟨L, space⟩) ⟨L, space⟩ = (i : Int)) ∧
    (∀ i, i < 2 ^ (L - 1) →
      BcudaImplCu.S2I_CUDA_Parity (BcudaImplCu.I2S_CUDA_Parity i ⟨L, space⟩) ⟨L, space⟩
        = (i : Int)) ∧
    (∀ s, s < 2 ^ L → popcount s % 2 = space →
      Part000.I2S_CUDA_Parity (Part000.S2I_CUDA_Parity s ⟨L, space⟩).toNat ⟨L, space⟩ = s) ∧
    (∀ s, s < 2 ^ L → popcount s % 2 = space →
      BcudaImplCu.I2S_CUDA_Parity (BcudaImplCu.S2I_CUDA_Parity s ⟨L, space⟩).toNat ⟨L, space⟩
        = s) ∧
    Finset.image (fun i => Part000.I2S_CUDA_Parity i ⟨3, 0⟩) (Finset.range 4) = {0, 3, 5, 6} ∧
    Finset.image (fun i => BcudaImplCu.I2S_CUDA_Parity i ⟨3, 0⟩) (Finset.range 4) = {0, 3, 5, 6}
    := by
  refine ⟨⟨?_, ?_, ?_⟩, ⟨?_, ?_, ?_⟩, ?_, ?_, ?_, ?_, by decide, by decide⟩
  · intro i hi
    exact p000_decode_mem L space i hL hs hi
  · intro i hi j hj heq
    have h1 := p000_encode_decode L space i hs
    have h2 := p000_encode_decode L space j hs
    simp only at heq
    rw [heq, h2] at h1
    exact_mod_cast h1.symm
  · intro s hmem
    have h2 := two_pow_split hL
    refine ⟨(Part000.S2I_CUDA_Parity s ⟨L, space⟩).toNat, ?_, ?_⟩
    · have hcond : CUDA_PARITY s = space := by
        rw [CUDA_PARITY_eq_mod]
        exact hmem.2
      have henc : Part000.S2I_CUDA_Parity s ⟨L, space⟩ = ((s >>> 1 : Nat) : Int) := by
        unfold Part000.S2I_CUDA_Parity
        exact if_pos hcond
      rw [henc, Int.toNat_natCast, Nat.shiftRight_one]
      have := hmem.1
      simp only [Set.mem_Iio]
      omega
    · exact p000_decode_encode L space s hs hmem.2
  · intro i hi
    exact bcuda_decode_mem L space i hL hs hi
  · intro i hi j hj heq
    have h1 := bcuda_encode_decode L space i hs hL hi
    have h2 := bcuda_encode_decode L space j hs hL hj
    simp only at heq
    rw [heq, h2] at h1
    exact_mod_cast h1.symm
  · intro s hmem
    refine ⟨(BcudaImplCu.S2I_CUDA_Parity s ⟨L, space⟩).toNat, ?_, ?_⟩
    · rw [bcuda_encode_eq_mod, Int.toNat_natCast]
      simp only [Set.mem_Iio]
      exact Nat.mod_lt _ (Nat.two_pow_pos _)
    · exact bcuda_decode_encode L space s hs hL hmem.1 hmem.2
  · intro i hi
    exact p000_encode_decode L space i hs
  · intro i hi
    exact bcuda_encode_decode L space i hs hL hi
  · intro s hlt hpar
    exact p000_decode_encode L space s hs hpar
  · intro s hlt hpar
    exact bcuda_decode_encode L space s hs hL hlt hpar

/-- Witness for C8 at `L = 3`, `space = 0`. -/
theorem c8_witness :
    1 ≤ 3 ∧ 0 ≤ 1 ∧
    Finset.image (fun i => Part000.I2S_CUDA_Parity i ⟨3, 0⟩) (Finset.range 4) = {0, 3, 5, 6} ∧
    Finset.image (fun i => BcudaImplCu.I2S_CUDA_Parity i ⟨3, 0⟩) (Finset.range 4)
      = {0, 3, 5, 6} := by
  have h := c8_parity_bijection 3 0 (by decide) (by decide)
  exact ⟨by decide, by decide, h.2.2.2.2.2.2.1, h.2.2.2.2.2.2.2⟩

/-! ## SpinConserve codec (combinatorial ranking / unranking) -/

/-- The `data_SpinConserve` struct: site count `L`, weight `k`, row stride
`ld_nchoosek`, and the flat binomial table in device memory, modelled as a
total function from addresses to values. -/
structure data_SpinConserve where
  L : Nat
  k : Nat
  ld_nchoosek : Nat
  nchoosek : Int → Int

namespace Part000

/-- The loop of `S2I_CUDA_SpinConserve`, one fuel unit per `for` iteration
(`fuel` counts the remaining iterations, `n` is the loop counter):
`if (state & 1) { k++; if (k <= n) idx += nchoosek[k*ld_nchoosek + n]; }
state >>= 1; if (state == 0) return idx;`. -/
def s2iLoopSC (d : data_SpinConserve) : Nat → Nat → Nat → Nat → Int → Int
  | 0, _, _, _, idx => idx
  | fuel + 1, n, state, k, idx =>
    let k2 := if state % 2 = 1 then k + 1 else k
    let idx2 := if state % 2 = 1 ∧ k + 1 ≤ n then
        idx + d.nchoosek (((k + 1) * d.ld_nchoosek + n : Nat) : Int)
      else idx
    if state / 2 = 0 then idx2
    else s2iLoopSC d fuel (n + 1) (state / 2) k2 idx2

/-- Embeds `S2I_CUDA_SpinConserve`: reject states that use a bit at position
`≥ L` or whose population count differs from `k`, otherwise rank the state. -/
def S2I_CUDA_SpinConserve (state : Nat) (d : data_SpinConserve) : Int :=
  if state >>> d.L ≠ 0 then -1
  else if popcount state ≠ d.k then -1
  else s2iLoopSC d d.L 0 state 0 0

/-- The loop of `I2S_CUDA_SpinConserve`, with `n` counting down from `L`:
`state <<= 1; current = (k > n-1) ? 0 : nchoosek[k*ld_nchoosek + n-1];
if (idx >= current) { idx -= current; k--; state |= 1; }`. -/
def i2sLoopSC (d : data_SpinConserve) : Nat → Nat → Int → Int → Nat
  | 0, state, _, _ => state
  | m + 1, state, k, idx =>
    let current : Int :=
      if k > (m : Int) then 0 else d.nchoosek (k * (d.ld_nchoosek : Int) + (m : Int))
    if idx ≥ current then i2sLoopSC d m ((state <<< 1) ||| 1) (k - 1) (idx - current)
    else i2sLoopSC d m (state <<< 1) k idx

/-- Embeds `I2S_CUDA_SpinConserve` (combinatorial unranking). -/
def I2S_CUDA_SpinConserve (idx : Int) (d : data_SpinConserve) : Nat :=
  i2sLoopSC d d.L 0 (d.k : Int) idx

/-- Variant of the `S2I_CUDA_SpinConserve` loop without the early return
`if (state == 0) return idx;`, used to state that the early exit is
result-preserving (claim C9). -/
def s2iLoopSCFull (d : data_SpinConserve) : Nat → Nat → Nat → Nat → Int → Int
  | 0, _, _, _, idx => idx
  | fuel + 1, n, state, k, idx =>
    let k2 := if state % 2 = 1 then k + 1 else k
    let idx2 := if state % 2 = 1 ∧ k + 1 ≤ n then
        idx + d.nchoosek (((k + 1) * d.ld_nchoosek + n : Nat) : Int)
      else idx
    s2iLoopSCFull d fuel (n + 1) (state / 2) k2 idx2

/-- `S2I_CUDA_SpinConserve` with the early-return optimization removed:
all `L` loop iterations always run. -/
def S2I_CUDA_SpinConserveFull (state : Nat) (d : data_SpinConserve) : Int :=
  if state >>> d.L ≠ 0 then -1
  else if popcount state ≠ d.k then -1
  else s2iLoopSCFull d d.L 0 state 0 0

end Part000

/-- Specification-side combinatorial rank of a fixed-weight bitstring,
scanning bits from least significant upward: `k` counts the set bits already
seen, `n` is the current bit position. -/
def crank (s k n : Nat) : Nat :=
  if s = 0 then 0
  else (if s % 2 = 1 then Nat.choose n (k + 1) else 0) +
    crank (s / 2) (if s % 2 = 1 then k + 1 else k) (n + 1)
termination_by s
decreasing_by exact Nat.div_lt_self (Nat.pos_of_ne_zero (by assumption)) (by omega)

/-- Specification-side combinatorial unrank: scan positions from `n-1` down
to `0`, setting a bit whenever the remaining index reaches the binomial
coefficient for that position. -/
def cunrank : Nat → Nat → Nat → Nat
  | 0, _, _ => 0
  | m + 1, k, idx =>
    if Nat.choose m k ≤ idx then 2 ^ m + cunrank m (k - 1) (idx - Nat.choose m k)
    else cunrank m k idx

theorem crank_zero (k n : Nat) : crank 0 k n = 0 := by
  unfold crank
  simp

theorem crank_eq (s k n : Nat) : crank s k n =
    (if s % 2 = 1 then Nat.choose n (k + 1) else 0) +
      crank (s / 2) (if s % 2 = 1 then k + 1 else k) (n + 1) := by
  by_cases h : s = 0
  · subst h
    simp [crank_zero]
  · conv_lhs => rw [crank]
    rw [if_neg h]

theorem crank_top (m : Nat) : ∀ s k n, s < 2 ^ m →
    crank (2 ^ m + s) k n = crank s k n + Nat.choose (n + m) (k + popcount s + 1) := by
  induction m with
  | zero =>
    intro s k n hs
    interval_cases s
    have e1 : (2 : Nat) ^ 0 + 0 = 1 := rfl
    have e0 : popcount 0 = 0 := rfl
    rw [e1, e0, crank_eq 1]
    simp [crank_zero]
  | succ m ih =>
    intro s k n hs
    have h2 : 2 ^ (m + 1) = 2 ^ m * 2 := by rw [Nat.pow_succ]
    have hmod : (2 ^ (m + 1) + s) % 2 = s % 2 := by omega
    have hdiv : (2 ^ (m + 1) + s) / 2 = 2 ^ m + s / 2 := by omega
    have hds : s / 2 < 2 ^ m := by omega
    have hpc : popcount s = s % 2 + popcount (s / 2) := popcount_eq s
    rcases Nat.mod_two_eq_zero_or_one s with hb | hb
    · rw [crank_eq (2 ^ (m + 1) + s), hmod, hdiv, if_neg (by omega), if_neg (by omega),
          ih (s / 2) k (n + 1) hds, crank_eq s, if_neg (by omega), if_neg (by omega)]
      have hidx : n + 1 + m = n + (m + 1) := by omega
      have hk : k + popcount (s / 2) + 1 = k + popcount s + 1 := by omega
      rw [hidx, hk]
      omega
    · rw [crank_eq (2 ^ (m + 1) + s), hmod, hdiv, if_pos hb, if_pos hb,
          ih (s / 2) (k + 1) (n + 1) hds, crank_eq s, if_pos hb, if_pos hb]
      have hidx : n + 1 + m = n + (m + 1) := by omega
      have hk : k + 1 + popcount (s / 2) + 1 = k + popcount s + 1 := by omega
      rw [hidx, hk]
      omega

theorem crank_lt_choose (n : Nat) : ∀ s k, s < 2 ^ n → popcount s = k →
    crank s 0 0 < Nat.choose n k := by
  induction n with
  | zero =>
    intro s k hs hk
    interval_cases s
    have : k = 0 := by
      rw [← hk]
      rfl
    rw [this, crank_zero, Nat.choose_zero_right]
    omega
  | succ n ih =>
    intro s k hs hk
    have h2 : 2 ^ (n + 1) = 2 ^ n * 2 := by rw [Nat.pow_succ]
    by_cases hlt : s < 2 ^ n
    · exact Nat.lt_of_lt_of_le (ih s k hlt hk)
        (Nat.choose_le_choose k (by omega))
    · have hs' : s - 2 ^ n < 2 ^ n := by omega
      have hss : s = 2 ^ n + (s - 2 ^ n) := by omega
      have hpc : popcount s = popcount (s - 2 ^ n) + 1 := by
        conv_lhs => rw [hss]
        exact popcount_two_pow_add n _ hs'
      have hk1 : k = popcount (s - 2 ^ n) + 1 := by omega
      have hr := crank_top n (s - 2 ^ n) 0 0 hs'
      have hih := ih (s - 2 ^ n) (popcount (s - 2 ^ n)) hs' rfl
      have hch := Nat.choose_succ_succ' n (popcount (s - 2 ^ n))
      rw [hk1, ← hch] at *
      calc crank s 0 0 = crank (2 ^ n + (s - 2 ^ n)) 0 0 := by rw [← hss]
        _ = crank (s - 2 ^ n) 0 0 + Nat.choose (0 + n) (0 + popcount (s - 2 ^ n) + 1) := hr
        _ < Nat.choose n (popcount (s - 2 ^ n)) +
              Nat.choose n (popcount (s - 2 ^ n) + 1) := by
            rw [Nat.zero_add, Nat.zero_add]
            omega
        _ = Nat.choose (n + 1) (popcount (s - 2 ^ n) + 1) :=
            (Nat.choose_succ_succ' n (popcount (s - 2 ^ n))).symm

theorem cunrank_props (n : Nat) : ∀ k idx, idx < Nat.choose n k →
    cunrank n k idx < 2 ^ n ∧ popcount (cunrank n k idx) = k ∧
      crank (cunrank n k idx) 0 0 = idx := by
  induction n with
  | zero =>
    intro k idx hidx
    cases k with
    | zero =>
      rw [Nat.choose_zero_right] at hidx
      interval_cases idx
      refine ⟨by decide, by decide, ?_⟩
      show crank 0 0 0 = 0
      exact crank_zero 0 0
    | succ k =>
      rw [Nat.choose_zero_succ] at hidx
      omega
  | succ m ih =>
    intro k idx hidx
    have h2 : 2 ^ (m + 1) = 2 ^ m * 2 := by rw [Nat.pow_succ]
    by_cases hc : Nat.choose m k ≤ idx
    · cases k with
      | zero =>
        rw [Nat.choose_zero_right] at hc hidx
        omega
      | succ q =>
        have hch := Nat.choose_succ_succ' m q
        have hb : idx - Nat.choose m (q + 1) < Nat.choose m q := by omega
        obtain ⟨ih1, ih2, ih3⟩ := ih q (idx - Nat.choose m (q + 1)) hb
        have hval : cunrank (m + 1) (q + 1) idx =
            2 ^ m + cunrank m q (idx - Nat.choose m (q + 1)) := by
          show (if Nat.choose m (q + 1) ≤ idx then _ else _) = _
          rw [if_pos hc]
          congr 1
        rw [hval]
        refine ⟨by omega, ?_, ?_⟩
        · rw [popcount_two_pow_add m _ ih1, ih2]
        · rw [crank_top m _ 0 0 ih1, ih3, ih2, Nat.zero_add, Nat.zero_add]
          omega
    · have hval : cunrank (m + 1) k idx = cunrank m k idx := by
        show (if Nat.choose m k ≤ idx then _ else _) = _
        rw [if_neg hc]
      obtain ⟨ih1, ih2, ih3⟩ := ih k idx (by omega)
      rw [hval]
      exact ⟨by omega, ih2, ih3⟩

theorem cunrank_crank (n : Nat) : ∀ s, s < 2 ^ n →
    cunrank n (popcount s) (crank s 0 0) = s := by
  induction n with
  | zero =>
    intro s hs
    interval_cases s
    rfl
  | succ n ih =>
    intro s hs
    have h2 : 2 ^ (n + 1) = 2 ^ n * 2 := by rw [Nat.pow_succ]
    by_cases hlt : s < 2 ^ n
    · have hD := crank_lt_choose n s (popcount s) hlt rfl
      show (if Nat.choose n (popcount s) ≤ crank s 0 0 then _ else _) = _
      rw [if_neg (by omega)]
      exact ih s hlt
    · have hs' : s - 2 ^ n < 2 ^ n := by omega
      have hss : s = 2 ^ n + (s - 2 ^ n) := by omega
      have hpc : popcount s = popcount (s - 2 ^ n) + 1 := by
        conv_lhs => rw [hss]
        exact popcount_two_pow_add n _ hs'
      have hr : crank s 0 0 = crank (s - 2 ^ n) 0 0 +
          Nat.choose n (popcount (s - 2 ^ n) + 1) := by
        conv_lhs => rw [hss]
        rw [crank_top n (s - 2 ^ n) 0 0 hs', Nat.zero_add, Nat.zero_add]
      show (if Nat.choose n (popcount s) ≤ crank s 0 0 then _ else _) = _
      rw [if_pos (by rw [hpc, hr]; omega)]
      have harg : crank s 0 0 - Nat.choose n (popcount s) = crank (s - 2 ^ n) 0 0 := by
        rw [hpc, hr]
        omega
      have hk : popcount s - 1 = popcount (s - 2 ^ n) := by omega
      rw [harg, hk, ih (s - 2 ^ n) hs']
      omega

/-- The hypothesis that the flat binomial table is valid, as the spec states
it: `table[i*ld_nchoosek + n] == C(n, i)` for all valid `i ≤ k`, `n ≤ L`. -/
def tableValid (d : data_SpinConserve) : Prop :=
  ∀ i n : Nat, i ≤ d.k → n ≤ d.L →
    d.nchoosek (((i * d.ld_nchoosek + n : Nat) : Int)) = ((Nat.choose n i : Nat) : Int)

theorem s2iLoopSC_succ (d : data_SpinConserve) (fuel n state k : Nat) (idx : Int) :
    Part000.s2iLoopSC d (fuel + 1) n state k idx =
      (if state / 2 = 0 then
        (if state % 2 = 1 ∧ k + 1 ≤ n then
          idx + d.nchoosek (((k + 1) * d.ld_nchoosek + n : Nat) : Int) else idx)
      else Part000.s2iLoopSC d fuel (n + 1) (state / 2)
        (if state % 2 = 1 then k + 1 else k)
        (if state % 2 = 1 ∧ k + 1 ≤ n then
          idx + d.nchoosek (((k + 1) * d.ld_nchoosek + n : Nat) : Int) else idx)) := rfl

theorem s2iLoopSC_eq_crank (d : data_SpinConserve) (htbl : tableValid d) :
    ∀ fuel n state k idx, state < 2 ^ fuel → k + popcount state ≤ d.k →
      n + fuel ≤ d.L →
      Part000.s2iLoopSC d fuel n state k idx = idx + ((crank state k n : Nat) : Int) := by
  intro fuel
  induction fuel with
  | zero =>
    intro n state k idx hstate hk hn
    have h0 : state = 0 := by
      have : (2 : Nat) ^ 0 = 1 := rfl
      omega
    subst h0
    rw [crank_zero]
    simp [Part000.s2iLoopSC]
  | succ fuel ih =>
    intro n state k idx hstate hk hn
    have hps : 2 ^ (fuel + 1) = 2 ^ fuel * 2 := by rw [Nat.pow_succ]
    have hpc := popcount_eq state
    have hcontrib : (if state % 2 = 1 ∧ k + 1 ≤ n then
        idx + d.nchoosek (((k + 1) * d.ld_nchoosek + n : Nat) : Int) else idx)
        = idx + (((if state % 2 = 1 then Nat.choose n (k + 1) else 0) : Nat) : Int) := by
      rcases Nat.mod_two_eq_zero_or_one state with hb | hb
      · rw [if_neg (by omega), if_neg (by omega)]
        simp
      · by_cases hkn : k + 1 ≤ n
        · rw [if_pos ⟨hb, hkn⟩, if_pos hb,
              htbl (k + 1) n (by omega) (by omega)]
        · rw [if_neg (by omega), if_pos hb, Nat.choose_eq_zero_of_lt (by omega)]
          simp
    rw [s2iLoopSC_succ, hcontrib]
    by_cases h0 : state / 2 = 0
    · rw [if_pos h0, crank_eq state, h0, crank_zero]
      simp
    · rw [if_neg h0]
      rcases Nat.mod_two_eq_zero_or_one state with hb | hb
      · rw [if_neg (by omega), if_neg (by omega),
            ih (n + 1) (state / 2) k (idx + ((0 : Nat) : Int)) (by omega) (by omega) (by omega),
            crank_eq state, if_neg (by omega), if_neg (by omega)]
        push_cast
        ring
      · rw [if_pos hb, if_pos hb,
            ih (n + 1) (state / 2) (k + 1) _ (by omega) (by omega) (by omega),
            crank_eq state, if_pos hb, if_pos hb]
        push_cast
        ring

theorem S2I_SpinConserve_eq_crank (d : data_SpinConserve) (htbl : tableValid d)
    (s : Nat) (hlt : s < 2 ^ d.L) (hpc : popcount s = d.k) :
    Part000.S2I_CUDA_SpinConserve s d = ((crank s 0 0 : Nat) : Int) := by
  unfold Part000.S2I_CUDA_SpinConserve
  have hshift : s >>> d.L = 0 := by
    rw [Nat.shiftRight_eq_div_pow]
    exact Nat.div_eq_of_lt hlt
  rw [if_neg (by simp [hshift]), if_neg (by simp [hpc]),
      s2iLoopSC_eq_crank d htbl d.L 0 s 0 0 hlt (by omega) (by omega)]
  simp

theorem cunrank_succ (m k idx : Nat) :
    cunrank (m + 1) k idx =
      if Nat.choose m k ≤ idx then 2 ^ m + cunrank m (k - 1) (idx - Nat.choose m k)
      else cunrank m k idx := rfl

theorem i2sLoopSC_succ (d : data_SpinConserve) (m state : Nat) (k idx : Int) :
    Part000.i2sLoopSC d (m + 1) state k idx =
      (if idx ≥ (if k > (m : Int) then 0
          else d.nchoosek (k * (d.ld_nchoosek : Int) + (m : Int))) then
        Part000.i2sLoopSC d m ((state <<< 1) ||| 1) (k - 1)
          (idx - (if k > (m : Int) then 0
            else d.nchoosek (k * (d.ld_nchoosek : Int) + (m : Int))))
      else Part000.i2sLoopSC d m (state <<< 1) k idx) := rfl

theorem i2sLoopSC_eq_cunrank (d : data_SpinConserve) (htbl : tableValid d) :
    ∀ n k idx state, idx < Nat.choose n k → k ≤ d.k → n ≤ d.L →
      Part000.i2sLoopSC d n state ((k : Nat) : Int) ((idx : Nat) : Int) =
        state * 2 ^ n + cunrank n k idx := by
  intro n
  induction n with
  | zero =>
    intro k idx state hidx hk hn
    cases k with
    | zero =>
      have h1 : Nat.choose 0 0 = 1 := rfl
      have h0 : idx = 0 := by omega
      subst h0
      show state = state * 2 ^ 0 + cunrank 0 0 0
      simp [cunrank]
    | succ q =>
      have h0 : Nat.choose 0 (q + 1) = 0 := Nat.choose_zero_succ q
      omega
  | succ m ih =>
    intro k idx state hidx hk hn
    have hps : 2 ^ (m + 1) = 2 ^ m * 2 := by rw [Nat.pow_succ]
    have hsl : state <<< 1 = 2 * state := by
      rw [Nat.shiftLeft_eq]
      ring
    have hsl1 : (state <<< 1) ||| 1 = 2 * state + 1 := by
      rw [hsl]
      exact two_mul_lor_bit state 1 (by omega)
    rw [i2sLoopSC_succ]
    by_cases hkm : m < k
    · have hcond : ((k : Nat) : Int) > (m : Int) := by exact_mod_cast hkm
      rw [if_pos hcond]
      cases k with
      | zero => omega
      | succ q =>
        have hch0 : Nat.choose m (q + 1) = 0 := Nat.choose_eq_zero_of_lt hkm
        have hidx' : idx < Nat.choose m q := by
          have := Nat.choose_succ_succ' m q
          omega
        have hk1 : (((q + 1 : Nat)) : Int) - 1 = ((q : Nat) : Int) := by
          push_cast
          ring
        rw [if_pos (by positivity), Int.sub_zero, hk1, hsl1,
            ih q idx (2 * state + 1) hidx' (by omega) (by omega), cunrank_succ]
        rw [if_pos (by omega), Nat.add_sub_cancel, hch0, Nat.sub_zero, hps]
        ring
    · have hcond : ¬ (((k : Nat) : Int) > (m : Int)) := by exact_mod_cast hkm
      rw [if_neg hcond]
      have haddr : ((k : Nat) : Int) * (d.ld_nchoosek : Int) + (m : Int)
          = ((k * d.ld_nchoosek + m : Nat) : Int) := by
        push_cast
        ring
      rw [haddr, htbl k m hk (by omega)]
      by_cases hc : Nat.choose m k ≤ idx
      · have hcond2 : ((idx : Nat) : Int) ≥ ((Nat.choose m k : Nat) : Int) := by
          exact_mod_cast hc
        rw [if_pos hcond2]
        cases k with
        | zero =>
          have h1 : Nat.choose m 0 = 1 := Nat.choose_zero_right m
          have h2 : Nat.choose (m + 1) 0 = 1 := Nat.choose_zero_right (m + 1)
          omega
        | succ q =>
          have hidx' : idx - Nat.choose m (q + 1) < Nat.choose m q := by
            have := Nat.choose_succ_succ' m q
            omega
          have hk1 : (((q + 1 : Nat)) : Int) - 1 = ((q : Nat) : Int) := by
            push_cast
            ring
          have hsub : ((idx : Nat) : Int) - ((Nat.choose m (q + 1) : Nat) : Int)
              = ((idx - Nat.choose m (q + 1) : Nat) : Int) := (Nat.cast_sub hc).symm
          rw [hk1, hsub, hsl1,
              ih q (idx - Nat.choose m (q + 1)) (2 * state + 1) hidx' (by omega) (by omega),
              cunrank_succ]
          rw [if_pos hc, Nat.add_sub_cancel, hps]
          ring
      · have hcond2 : ¬ (((idx : Nat) : Int) ≥ ((Nat.choose m k : Nat) : Int)) := by
          exact_mod_cast hc
        rw [if_neg hcond2, hsl,
            ih k idx (2 * state) (by omega) hk (by omega), cunrank_succ]
        rw [if_neg hc, hps]
        ring

theorem I2S_SpinConserve_eq_cunrank (d : data_SpinConserve) (htbl : tableValid d)
    (i : Nat) (hi : i < Nat.choose d.L d.k) :
    Part000.I2S_CUDA_SpinConserve ((i : Nat) : Int) d = cunrank d.L d.k i := by
  unfold Part000.I2S_CUDA_SpinConserve
  rw [i2sLoopSC_eq_cunrank d htbl d.L d.k i 0 hi (by omega) (by omega)]
  simp

/-- Claim C1 : for the SpinConserve codec with a valid binomial table,
encode and decode are exact inverses: decode∘encode is the identity on the
states of width `≤ L` and population count exactly `k`, and encode∘decode is
the identity on the index range `[0, C(L,k))`. -/
theorem c1_spinconserve_roundtrip (d : data_SpinConserve) (htbl : tableValid d) :
    (∀ s : Nat, s < 2 ^ d.L → popcount s = d.k →
      Part000.I2S_CUDA_SpinConserve (Part000.S2I_CUDA_SpinConserve s d) d = s) ∧
    (∀ i : Nat, i < Nat.choose d.L d.k →
      Part000.S2I_CUDA_SpinConserve (Part000.I2S_CUDA_SpinConserve ((i : Nat) : Int) d) d
        = ((i : Nat) : Int)) := by
  constructor
  · intro s hlt hpc
    have hrank : crank s 0 0 < Nat.choose d.L d.k := by
      rw [← hpc]
      exact crank_lt_choose d.L s (popcount s) hlt rfl
    rw [S2I_SpinConserve_eq_crank d htbl s hlt hpc,
        I2S_SpinConserve_eq_cunrank d htbl (crank s 0 0) hrank, ← hpc]
    exact cunrank_crank d.L s hlt
  · intro i hi
    obtain ⟨h1, h2, h3⟩ := cunrank_props d.L d.k i hi
    rw [I2S_SpinConserve_eq_cunrank d htbl i hi,
        S2I_SpinConserve_eq_crank d htbl _ h1 h2, h3]

/-- Claim C5 : for the SpinConserve codec with a valid binomial table,
encode rejects with the sentinel `-1` exactly the states that use a bit at
position `≥ L` or whose population count differs from `k`; every valid state
is not rejected. -/
theorem c5_spinconserve_rejection (d : data_SpinConserve) (htbl : tableValid d) :
    (∀ s : Nat, 2 ^ d.L ≤ s ∨ popcount s ≠ d.k →
      Part000.S2I_CUDA_SpinConserve s d = -1) ∧
    (∀ s : Nat, s < 2 ^ d.L → popcount s = d.k →
      Part000.S2I_CUDA_SpinConserve s d ≠ -1) := by
  constructor
  · intro s hrej
    unfold Part000.S2I_CUDA_SpinConserve
    by_cases h1 : s >>> d.L ≠ 0
    · rw [if_pos h1]
    · rw [if_neg h1]
      have hlt : s < 2 ^ d.L := by
        rw [Nat.shiftRight_eq_div_pow] at h1
        push_neg at h1
        have hpos : 0 < 2 ^ d.L := Nat.two_pow_pos d.L
        rcases Nat.lt_or_ge s (2 ^ d.L) with h | h
        · exact h
        · exact absurd h1 (by
            have : 1 ≤ s / 2 ^ d.L := (Nat.one_le_div_iff hpos).mpr h
            omega)
      rw [if_pos (by omega)]
  · intro s hlt hpc
    rw [S2I_SpinConserve_eq_crank d htbl s hlt hpc]
    have := Int.natCast_nonneg (crank s 0 0)
    omega

theorem s2iLoopSCFull_state_zero (d : data_SpinConserve) :
    ∀ fuel n k idx, Part000.s2iLoopSCFull d fuel n 0 k idx = idx := by
  intro fuel
  induction fuel with
  | zero =>
    intro n k idx
    rfl
  | succ fuel ih =>
    intro n k idx
    show Part000.s2iLoopSCFull d fuel (n + 1) (0 / 2)
        (if (0 : Nat) % 2 = 1 then k + 1 else k)
        (if (0 : Nat) % 2 = 1 ∧ k + 1 ≤ n then _ else idx) = idx
    rw [if_neg (by omega), if_neg (by omega)]
    exact ih (n + 1) k idx

theorem s2iLoopSC_eq_full (d : data_SpinConserve) :
    ∀ fuel n state k idx,
      Part000.s2iLoopSC d fuel n state k idx = Part000.s2iLoopSCFull d fuel n state k idx := by
  intro fuel
  induction fuel with
  | zero =>
    intro n state k idx
    rfl
  | succ fuel ih =>
    intro n state k idx
    rw [s2iLoopSC_succ]
    by_cases h0 : state / 2 = 0
    · rw [if_pos h0]
      show _ = Part000.s2iLoopSCFull d fuel (n + 1) (state / 2) _ _
      rw [h0, s2iLoopSCFull_state_zero]
    · rw [if_neg h0]
      exact ih (n + 1) (state / 2) _ _

/-- Claim C9 : the early-return optimization in `S2I_CUDA_SpinConserve`
(`if (state == 0) return idx;`) is result-preserving: for every state that
passes the two rejection checks, the optimized function agrees with the
variant that always runs all `L` loop iterations. -/
theorem c9_early_exit_preserving (d : data_SpinConserve) (state : Nat)
    (h1 : state >>> d.L = 0) (h2 : popcount state = d.k) :
    Part000.S2I_CUDA_SpinConserve state d = Part000.S2I_CUDA_SpinConserveFull state d := by
  unfold Part000.S2I_CUDA_SpinConserve Part000.S2I_CUDA_SpinConserveFull
  rw [s2iLoopSC_eq_full]

/-- A concrete SpinConserve codec instance: `L = 4`, `k = 2`, row stride
`ld_nchoosek = 5`, with the binomial table laid out as the source expects. -/
def d4 : data_SpinConserve :=
  ⟨4, 2, 5, fun a => ((Nat.choose (a.toNat % 5) (a.toNat / 5) : Nat) : Int)⟩

theorem htbl_d4 : tableValid d4 := by
  intro i n hi hn
  show ((Nat.choose (((i * 5 + n : Nat) : Int).toNat % 5)
      (((i * 5 + n : Nat) : Int).toNat / 5) : Nat) : Int) = _
  rw [Int.toNat_natCast]
  have hn4 : n ≤ 4 := hn
  have hmod : (i * 5 + n) % 5 = n := by omega
  have hdiv : (i * 5 + n) / 5 = i := by omega
  rw [hmod, hdiv]

/-- Claim C7 : for SpinConserve with `L = 4`, `k = 2` and a correct binomial
table, `dim = C(4,2) = 6`, `decode 0 = 0b0011`, `decode 5 = 0b1100`, and the
six decoded states for indices `0..5` are exactly the six weight-2
bitstrings over 4 bits, in the ranking order given by the low-to-high-bit
scan of encode. -/
theorem c7_spinconserve_concrete :
    Nat.choose 4 2 = 6 ∧
    Part000.I2S_CUDA_SpinConserve 0 d4 = 3 ∧
    Part000.I2S_CUDA_SpinConserve 5 d4 = 12 ∧
    (List.map (fun i : Nat => Part000.I2S_CUDA_SpinConserve ((i : Nat) : Int) d4)
      [0, 1, 2, 3, 4, 5] = [3, 5, 6, 9, 10, 12]) ∧
    (∀ i : Fin 6, Part000.S2I_CUDA_SpinConserve
      (Part000.I2S_CUDA_SpinConserve ((i : Nat) : Int) d4) d4 = ((i : Nat) : Int)) ∧
    (∀ i : Fin 6, popcount (Part000.I2S_CUDA_SpinConserve ((i : Nat) : Int) d4) = 2 ∧
      Part000.I2S_CUDA_SpinConserve ((i : Nat) : Int) d4 < 16) ∧
    (∀ s : Fin 16, popcount (s : Nat) = 2 →
      ∃ i : Fin 6, Part000.I2S_CUDA_SpinConserve ((i : Nat) : Int) d4 = (s : Nat)) := by
  decide

/-- Witness for C1 at the concrete codec `d4`, state `0b0101`, index `3`. -/
theorem c1_witness :
    Part000.I2S_CUDA_SpinConserve (Part000.S2I_CUDA_SpinConserve 5 d4) d4 = 5 ∧
    Part000.S2I_CUDA_SpinConserve (Part000.I2S_CUDA_SpinConserve ((3 : Nat) : Int) d4) d4
      = ((3 : Nat) : Int) :=
  ⟨(c1_spinconserve_roundtrip d4 htbl_d4).1 5 (by decide) (by decide),
   (c1_spinconserve_roundtrip d4 htbl_d4).2 3 (by decide)⟩

/-- Witness for C5 at the concrete codec `d4`: state `20` uses bit 4 and is
rejected, state `7` has population count 3 and is rejected, state `5` is a
member and is not rejected. -/
theorem c5_witness :
    Part000.S2I_CUDA_SpinConserve 20 d4 = -1 ∧
    Part000.S2I_CUDA_SpinConserve 7 d4 = -1 ∧
    Part000.S2I_CUDA_SpinConserve 5 d4 ≠ -1 :=
  ⟨(c5_spinconserve_rejection d4 htbl_d4).1 20 (Or.inl (by decide)),
   (c5_spinconserve_rejection d4 htbl_d4).1 7 (Or.inr (by decide)),
   (c5_spinconserve_rejection d4 htbl_d4).2 5 (by decide) (by decide)⟩

/-- Witness for C9 at the concrete codec `d4`, state `0b0101`. -/
theorem c9_witness :
    Part000.S2I_CUDA_SpinConserve 5 d4 = Part000.S2I_CUDA_SpinConserveFull 5 d4 :=
  c9_early_exit_preserving d4 5 (by decide) (by decide)

/-! ## Auto codec: binary search (unnamed generation) -/

namespace Part000

/-- Embeds the binary-search loop of `S2I_CUDA_Auto`, with explicit fuel
(`none` means the fuel ran out before the loop finished).  The second
component records every array position `mid` at which `rmap_states` (and on
a hit `rmap_indices`) is read.  Device memory is modelled as total functions
from positions to values. -/
def s2iAutoRun (rmap_states rmap_indices : Int → Int) (state : Int) :
    Int → Int → Nat → Option Int × List Int
  | _, _, 0 => (none, [])
  | left, right, fuel + 1 =>
    if left ≤ right then
      if rmap_states (left + (right - left) / 2) = state then
        (some (rmap_indices (left + (right - left) / 2)), [left + (right - left) / 2])
      else if rmap_states (left + (right - left) / 2) < state then
        ((s2iAutoRun rmap_states rmap_indices state (left + (right - left) / 2 + 1) right
            fuel).1,
          (left + (right - left) / 2) ::
            (s2iAutoRun rmap_states rmap_indices state (left + (right - left) / 2 + 1) right
              fuel).2)
      else
        ((s2iAutoRun rmap_states rmap_indices state left (left + (right - left) / 2 - 1)
            fuel).1,
          (left + (right - left) / 2) ::
            (s2iAutoRun rmap_states rmap_indices state left (left + (right - left) / 2 - 1)
              fuel).2)
    else (some (-1), [])

/-- Embeds `S2I_CUDA_Auto`: `left = 0; right = data->dim;` then the
`while (left <= right)` loop. -/
def S2I_CUDA_Auto (rmap_states rmap_indices : Int → Int) (dim state : Int) (fuel : Nat) :
    Option Int × List Int :=
  s2iAutoRun rmap_states rmap_indices state 0 dim fuel

end Part000

theorem s2iAutoRun_succ (rs ri : Int → Int) (state left right : Int) (fuel : Nat) :
    Part000.s2iAutoRun rs ri state left right (fuel + 1) =
      if left ≤ right then
        if rs (left + (right - left) / 2) = state then
          (some (ri (left + (right - left) / 2)), [left + (right - left) / 2])
        else if rs (left + (right - left) / 2) < state then
          ((Part000.s2iAutoRun rs ri state (left + (right - left) / 2 + 1) right fuel).1,
            (left + (right - left) / 2) ::
              (Part000.s2iAutoRun rs ri state (left + (right - left) / 2 + 1) right fuel).2)
        else
          ((Part000.s2iAutoRun rs ri state left (left + (right - left) / 2 - 1) fuel).1,
            (left + (right - left) / 2) ::
              (Part000.s2iAutoRun rs ri state left (left + (right - left) / 2 - 1) fuel).2)
      else (some (-1), []) := rfl

theorem s2iAutoRun_ne_none (rs ri : Int → Int) (state : Int) :
    ∀ fuel left right, (right - left + 1).toNat < fuel →
      (Part000.s2iAutoRun rs ri state left right fuel).1 ≠ none := by
  intro fuel
  induction fuel with
  | zero =>
    intro left right hm
    omega
  | succ fuel ih =>
    intro left right hm
    rw [s2iAutoRun_succ]
    by_cases hlr : left ≤ right
    · rw [if_pos hlr]
      by_cases h1 : rs (left + (right - left) / 2) = state
      · rw [if_pos h1]
        simp
      · rw [if_neg h1]
        by_cases h2 : rs (left + (right - left) / 2) < state
        · rw [if_pos h2]
          show (Part000.s2iAutoRun rs ri state (left + (right - left) / 2 + 1) right
              fuel).1 ≠ none
          apply ih
          omega
        · rw [if_neg h2]
          show (Part000.s2iAutoRun rs ri state left (left + (right - left) / 2 - 1)
              fuel).1 ≠ none
          apply ih
          omega
    · rw [if_neg hlr]
      simp

/-- Claim C10 : the binary-search loop of `S2I_CUDA_Auto` terminates for
every input: with fuel exceeding the initial measure `right - left + 1 =
dim + 1`, the loop always reaches a return. -/
theorem c10_auto_search_terminates (rs ri : Int → Int) (state dim : Int) (fuel : Nat)
    (hfuel : (dim + 1).toNat < fuel) :
    (Part000.S2I_CUDA_Auto rs ri dim state fuel).1 ≠ none := by
  unfold Part000.S2I_CUDA_Auto
  apply s2iAutoRun_ne_none
  omega

/-- `rmap_states` for a `dim = 1` subspace holding the single state `5`;
positions other than `0` hold arbitrary out-of-bounds garbage (`999`). -/
def exStates : Int → Int := fun i => if i = 0 then 5 else 999

/-- `rmap_indices` for the same subspace: index `0` everywhere. -/
def exIdxs : Int → Int := fun _ => 0

/-- Witness for C10 : the search for the absent state `7` over
`exStates` with `dim = 1` returns within fuel `10`. -/
theorem c10_witness :
    ((1 : Int) + 1).toNat < 10 ∧
    (Part000.S2I_CUDA_Auto exStates exIdxs 1 7 10).1 ≠ none :=
  ⟨by decide, c10_auto_search_terminates exStates exIdxs 7 1 10 (by decide)⟩

/-- Claim C2 (evaluation of the code at the failing inputs) : because the
search initializes `right = dim` instead of `dim - 1`, searching for state
`7` (greater than every element) with `dim = 1` reads `rmap_states[1]` —
position `dim`, out of bounds — and with `dim = 0` (empty search space) it
reads `rmap_states[0]`.  Moreover the garbage value `999` read at position
`dim` is then reported as found: searching for `999` returns
`rmap_indices[1]` instead of the sentinel `-1`. -/
theorem c2_auto_search_reads_out_of_bounds :
    (Part000.S2I_CUDA_Auto exStates exIdxs 1 7 10).2 = [0, 1] ∧
    ((1 : Int) ∈ (Part000.S2I_CUDA_Auto exStates exIdxs 1 7 10).2 ∧
      ¬ ((1 : Int) < (1 : Int))) ∧
    (Part000.S2I_CUDA_Auto exStates exIdxs 0 7 10).2 = [0] ∧
    ((0 : Int) ∈ (Part000.S2I_CUDA_Auto exStates exIdxs 0 7 10).2 ∧
      ¬ ((0 : Int) < (0 : Int))) ∧
    (Part000.S2I_CUDA_Auto exStates exIdxs 1 999 10).1 = some 0 := by
  decide

/-! ## Device data transfer (CUDA heap model) -/

/-- The device allocator state: the list of live allocation ids, the next
fresh id, and the number of CUDA calls made so far (used to index the
success/failure oracle). -/
structure CudaHeap where
  live : List Nat
  next : Nat
  calls : Nat

/-- Models `cudaMalloc`: the oracle `ok` decides whether the current CUDA
call succeeds; on success a fresh allocation id becomes live. -/
def cudaMalloc (ok : Nat → Bool) (size : Nat) (h : CudaHeap) : Option Nat × CudaHeap :=
  if ok h.calls then (some h.next, ⟨h.next :: h.live, h.next + 1, h.calls + 1⟩)
  else (none, ⟨h.live, h.next, h.calls + 1⟩)

/-- Models `cudaMemcpy`: succeeds or fails per the oracle, does not change
the live set. -/
def cudaMemcpy (ok : Nat → Bool) (h : CudaHeap) : Bool × CudaHeap :=
  (ok h.calls, ⟨h.live, h.next, h.calls + 1⟩)

namespace Part000

/-- Embeds `CopySubspaceData_CUDA_SpinConserve`: malloc the device binomial
table, copy it, malloc the struct, copy it; each `CHKERRCUDA(err)` is an
early error return (`none`).  On success returns the device pointers
(table, struct).  `PetscMemcpy` of the host struct is heap-neutral and is
not modelled. -/
def CopySubspaceData_CUDA_SpinConserve (ok : Nat → Bool) (len_nchoosek : Nat)
    (h : CudaHeap) : Option (Nat × Nat) × CudaHeap :=
  match cudaMalloc ok len_nchoosek h with
  | (none, h1) => (none, h1)
  | (some dev_nchoosek, h1) =>
    match cudaMemcpy ok h1 with
    | (false, h2) => (none, h2)
    | (true, h2) =>
      match cudaMalloc ok 1 h2 with
      | (none, h3) => (none, h3)
      | (some out_p, h3) =>
        match cudaMemcpy ok h3 with
        | (false, h4) => (none, h4)
        | (true, h4) => (some (dev_nchoosek, out_p), h4)

/-- Embeds `CopySubspaceData_CUDA_Auto` (unnamed generation): malloc and
copy `state_map`, `rmap_indices`, `rmap_states` (each of length `dim`),
then malloc and copy the struct. -/
def CopySubspaceData_CUDA_Auto (ok : Nat → Bool) (dim : Nat) (h : CudaHeap) :
    Option (Nat × Nat × Nat × Nat) × CudaHeap :=
  match cudaMalloc ok dim h with
  | (none, h1) => (none, h1)
  | (some state_map, h1) =>
    match cudaMemcpy ok h1 with
    | (false, h2) => (none, h2)
    | (true, h2) =>
      match cudaMalloc ok dim h2 with
      | (none, h3) => (none, h3)
      | (some rmap_indices, h3) =>
        match cudaMemcpy ok h3 with
        | (false, h4) => (none, h4)
        | (true, h4) =>
          match cudaMalloc ok dim h4 with
          | (none, h5) => (none, h5)
          | (some rmap_states, h5) =>
            match cudaMemcpy ok h5 with
            | (false, h6) => (none, h6)
            | (true, h6) =>
              match cudaMalloc ok 1 h6 with
              | (none, h7) => (none, h7)
              | (some out_p, h7) =>
                match cudaMemcpy ok h7 with
                | (false, h8) => (none, h8)
                | (true, h8) => (some (state_map, rmap_indices, rmap_states, out_p), h8)

end Part000

/-- Claim C4 (counterexample to atomicity) : let the third CUDA call (the
struct `cudaMalloc`) fail after the first allocation succeeded.  Both
transfer routines propagate the error (`none`), yet allocation id `0` made
earlier in the same call is still live — a leaked partial allocation. -/
theorem c4_counterexample :
    (Part000.CopySubspaceData_CUDA_SpinConserve (fun n => n != 2) 6 ⟨[], 0, 0⟩).1 = none ∧
    (Part000.CopySubspaceData_CUDA_SpinConserve (fun n => n != 2) 6 ⟨[], 0, 0⟩).2.live
      = [0] ∧
    (Part000.CopySubspaceData_CUDA_Auto (fun n => n != 2) 3 ⟨[], 0, 0⟩).1 = none ∧
    (Part000.CopySubspaceData_CUDA_Auto (fun n => n != 2) 3 ⟨[], 0, 0⟩).2.live = [0] := by
  decide

/-- Claim C4 (amended) : the transfer routines are not atomic.  Whenever
the first `cudaMalloc` succeeds and a later step fails, the error is
propagated to the caller (the call returns failure), but the allocation
made by that first `cudaMalloc` remains live — it is leaked, not rolled
back. -/
theorem c4_transfer_leaks_on_failure (ok : Nat → Bool) (h : CudaHeap) (len dim : Nat)
    (hfirst : ok h.calls = true) :
    ((Part000.CopySubspaceData_CUDA_SpinConserve ok len h).1 = none →
      h.next ∈ (Part000.CopySubspaceData_CUDA_SpinConserve ok len h).2.live) ∧
    ((Part000.CopySubspaceData_CUDA_Auto ok dim h).1 = none →
      h.next ∈ (Part000.CopySubspaceData_CUDA_Auto ok dim h).2.live) := by
  constructor
  · unfold Part000.CopySubspaceData_CUDA_SpinConserve
    simp only [cudaMalloc, cudaMemcpy, hfirst, if_true]
    cases hb1 : ok (h.calls + 1) with
    | false => simp [hb1]
    | true =>
      cases hb2 : ok (h.calls + 1 + 1) with
      | false => simp [hb1, hb2]
      | true =>
        cases hb3 : ok (h.calls + 1 + 1 + 1) with
        | false => simp [hb1, hb2, hb3]
        | true => simp [hb1, hb2, hb3]
  · unfold Part000.CopySubspaceData_CUDA_Auto
    simp only [cudaMalloc, cudaMemcpy, hfirst, if_true]
    cases hb1 : ok (h.calls + 1) with
    | false => simp [hb1]
    | true =>
      cases hb2 : ok (h.calls + 1 + 1) with
      | false => simp [hb1, hb2]
      | true =>
        cases hb3 : ok (h.calls + 1 + 1 + 1) with
        | false => simp [hb1, hb2, hb3]
        | true =>
          cases hb4 : ok (h.calls + 1 + 1 + 1 + 1) with
          | false => simp [hb1, hb2, hb3, hb4]
          | true =>
            cases hb5 : ok (h.calls + 1 + 1 + 1 + 1 + 1) with
            | false => simp [hb1, hb2, hb3, hb4, hb5]
            | true =>
              cases hb6 : ok (h.calls + 1 + 1 + 1 + 1 + 1 + 1) with
              | false => simp [hb1, hb2, hb3, hb4, hb5, hb6]
              | true =>
                cases hb7 : ok (h.calls + 1 + 1 + 1 + 1 + 1 + 1 + 1) with
                | false => simp [hb1, hb2, hb3, hb4, hb5, hb6, hb7]
                | true => simp [hb1, hb2, hb3, hb4, hb5, hb6, hb7]

/-- Witness for the amended C4 at the concrete failure schedule of the
counterexample. -/
theorem c4_witness :
    (fun n : Nat => n != 2) 0 = true ∧
    ((Part000.CopySubspaceData_CUDA_SpinConserve (fun n => n != 2) 6 ⟨[], 0, 0⟩).1 = none →
      0 ∈ (Part000.CopySubspaceData_CUDA_SpinConserve (fun n => n != 2) 6 ⟨[], 0, 0⟩).2.live) ∧
    ((Part000.CopySubspaceData_CUDA_Auto (fun n => n != 2) 3 ⟨[], 0, 0⟩).1 = none →
      0 ∈ (Part000.CopySubspaceData_CUDA_Auto (fun n => n != 2) 3 ⟨[], 0, 0⟩).2.live) :=
  ⟨rfl, (c4_transfer_leaks_on_failure (fun n => n != 2) ⟨[], 0, 0⟩ 6 3 rfl).1,
    (c4_transfer_leaks_on_failure (fun n => n != 2) ⟨[], 0, 0⟩ 6 3 rfl).2⟩

end Dynamite
